import Mathlib

/-!
Verification development for the CRM repository (csvtojson.py, crypt.py).

The Python source is shallowly embedded: strings are Lean `String`s, rows and
records are structures, Python dicts keyed by strings are association lists
with insert-or-replace semantics, numeric scores are rationals, and byte
strings are lists of naturals.  Unicode-specific operations
(`unicodedata.normalize('NFD', ...)`, `str.lower`, `str.strip`, `\w`) are
modelled by explicit character tables covering the alphabet the program works
over (ASCII plus the Spanish accented letters); SHA-256 and PBKDF2 in
crypt.py are kept abstract (the round-trip property does not depend on them).
-/

set_option maxRecDepth 4096

namespace Crm

/-! ## Character and string primitives -/

/-- Whitespace recognised by the model of Python `str.strip` / `str.split`. -/
def isSpaceB (c : Char) : Bool := c = ' ' || c = '\t' || c = '\n' || c = '\r'

/-- Drop leading whitespace characters. -/
def dropLeading (l : List Char) : List Char := l.dropWhile isSpaceB

/-- Drop trailing whitespace characters. -/
def dropTrailing (l : List Char) : List Char := (l.reverse.dropWhile isSpaceB).reverse

/-- Model of Python `str.strip` on character lists. -/
def trimChars (l : List Char) : List Char := dropTrailing (dropLeading l)

/-- Model of Python `str.strip`. -/
def pyStrip (s : String) : String := ⟨trimChars s.data⟩

/-- ASCII lower-casing of one character: the effect of Python `str.lower`
on unaccented text (which is all `normalize_spanish_name` feeds it). -/
def asciiLowerChar (c : Char) : Char :=
  if 65 ≤ c.toNat ∧ c.toNat ≤ 90 then Char.ofNat (c.toNat + 32) else c

/-- Model of Python `str.lower` for the full alphabet the program sees:
ASCII letters plus the upper-case Spanish accented letters. -/
def pyLowerChar (c : Char) : Char :=
  if c = 'Á' then 'á' else if c = 'É' then 'é' else if c = 'Í' then 'í'
  else if c = 'Ó' then 'ó' else if c = 'Ú' then 'ú' else if c = 'Ü' then 'ü'
  else if c = 'Ñ' then 'ñ' else asciiLowerChar c

/-- Model of Python `str.lower` on strings. -/
def pyLower (s : String) : String := ⟨s.data.map pyLowerChar⟩

/-- Combining diacritical marks (Unicode block U+0300–U+036F), the characters
`unicodedata.combining` flags on the program's alphabet. -/
def isCombiningB (c : Char) : Bool := 768 ≤ c.toNat && c.toNat ≤ 879

/-- NFD decomposition table restricted to the Spanish alphabet: an accented
letter decomposes to its base letter (the combining mark being dropped by the
caller); every other character is its own decomposition. -/
def stripAccentChar (c : Char) : Char :=
  if c = 'á' then 'a' else if c = 'é' then 'e' else if c = 'í' then 'i'
  else if c = 'ó' then 'o' else if c = 'ú' then 'u' else if c = 'ü' then 'u'
  else if c = 'ñ' then 'n'
  else if c = 'Á' then 'A' else if c = 'É' then 'E' else if c = 'Í' then 'I'
  else if c = 'Ó' then 'O' else if c = 'Ú' then 'U' else if c = 'Ü' then 'U'
  else if c = 'Ñ' then 'N' else c

/-- One step of `normalize_spanish_name`'s character pipeline: a combining
mark is removed, any other character is NFD-decomposed to its base letter. -/
def decompChar (c : Char) : Option Char :=
  if isCombiningB c then none else some (stripAccentChar c)

/-- Model of `normalize_spanish_name`: NFD-decompose, drop combining marks,
lower-case, strip surrounding whitespace. -/
def normalize_spanish_name (s : String) : String :=
  ⟨trimChars ((s.data.filterMap decompChar).map asciiLowerChar)⟩

/-- Characters produced by the normaliser are fixed points of every stage of
its pipeline. -/
def cleanCharB (c : Char) : Bool :=
  !isCombiningB c && stripAccentChar c = c && asciiLowerChar c = c

/-! ## Telegram handle normalisation (csvtojson.py lines 102-112 and 213-223) -/

/-- The fixed "no telegram" indicator tokens. -/
def no_telegram_indicators : List String :=
  ["no tengo", "no", "none", "0", "n/a", "-"]

/-- Model of Python `value.replace(" ", "")`: remove every space character. -/
def removeSpaces (s : String) : String := ⟨s.data.filter (fun c => c != ' ')⟩

/-- Model of Python `value.startswith("@")`. -/
def hasAtMark (s : String) : Bool :=
  match s.data with
  | [] => false
  | c :: _ => c = '@'

/-- The telegram-handle normalisation of read_csv_file (lines 102-112); the
merge loop of process_csv_files (lines 213-223) duplicates this logic
verbatim, so the model shares one definition.  The source only runs the body
when the value is non-empty. -/
def normalizeTelegram (value : String) : String :=
  if value = "" then value
  else if pyStrip (pyLower value) ∈ no_telegram_indicators then ""
  else
    let v := removeSpaces value
    if hasAtMark v then v else "@" ++ v

/-! ## The data model -/

/-- Split on a separator character, keeping empty pieces: the model of
Python `str.split(sep)` for a one-character separator. -/
def pySplitAux (sep : Char) : List Char → List Char → List (List Char)
  | [], acc => [acc.reverse]
  | c :: cs, acc =>
      if c = sep then acc.reverse :: pySplitAux sep cs []
      else pySplitAux sep cs (c :: acc)

/-- Model of Python `s.split(sep)` for a one-character separator. -/
def pySplit (sep : Char) (s : String) : List String :=
  (pySplitAux sep s.data []).map (fun l => (⟨l⟩ : String))

/-- Model of `os.path.basename`: the part after the last slash. -/
def basename (s : String) : String :=
  match (pySplit '/' s).getLast? with
  | some t => t
  | none => s

/-- One row extracted from one source file by read_csv_file: the five contact
categories, the slug-keyed essay responses, and the source file path. -/
structure RawRecord where
  nombre : String
  correo : String
  telegram : String
  carrera : String
  generacion : String
  essay_responses : List (String × String)
  source : String
deriving DecidableEq, Inhabited

/-- The per-person summary statistics of parse_markdown_table. -/
structure AttendanceStats where
  total_sessions : Nat
  attended : Nat
  justified : Nat
  attendance_rate : ℚ
deriving DecidableEq, Inhabited

/-- One course's attendance data for one person (parse_markdown_table). -/
structure AttendanceRecord where
  course : String
  sessions : List (String × String)
  stats : AttendanceStats
deriving DecidableEq, Inhabited

/-- The merged output record built by process_csv_files for one group.  A
postulacion is modelled as the pair (form file name, essay responses): the
Python dict `{"form": f} ∪ responses`. -/
structure CanonicalPerson where
  nombre : String
  nombre_normalized : String
  correo : String
  telegram : String
  carrera : String
  generacion : String
  postulaciones : List (String × List (String × String))
  sources : List String
  attendance : List AttendanceRecord
deriving DecidableEq, Inhabited

/-! ## Filtering, grouping and merging (process_csv_files, lines 143-257) -/

/-- The filtering pass (lines 151-166): a record survives when its stripped
email, name or telegram is non-empty. -/
def survives (r : RawRecord) : Bool :=
  pyStrip r.correo != "" || pyStrip r.nombre != "" || pyStrip r.telegram != ""

/-- The records surviving the filtering pass, in input order. -/
def survivors (records : List RawRecord) : List RawRecord :=
  records.filter survives

/-- The name used for the fallback grouping key (line 183): the record's
normalised name when the filtering pass attached one (line 163, only when the
stripped name is non-empty), else the raw name. -/
def groupNombre (r : RawRecord) : String :=
  if pyStrip r.nombre != "" then normalize_spanish_name (pyStrip r.nombre) else r.nombre

/-- The grouping key (lines 174-189): the stripped lower-cased email when
non-empty, otherwise the synthetic name+telegram key. -/
def groupKey (r : RawRecord) : String :=
  let email := pyLower (pyStrip r.correo)
  if email != "" then email
  else "no_email_" ++ pyLower (pyStrip (groupNombre r)) ++ "_" ++ pyLower (pyStrip r.telegram)

/-- First-seen-order deduplication, the key order of a Python dict built by
repeated insertion. -/
def pyDedup : List String → List String
  | [] => []
  | a :: as => a :: (pyDedup as).filter (fun b => b != a)

/-- The keys of the email_groups dict, in insertion order. -/
def groupKeys (records : List RawRecord) : List String :=
  pyDedup ((survivors records).map groupKey)

/-- The group stored under one key: its records in input order. -/
def groupFor (records : List RawRecord) (k : String) : List RawRecord :=
  (survivors records).filter (fun r => groupKey r = k)

/-- One update step of the identity-field resolution loop (lines 225-228). -/
def mergeField (current new : String) : String :=
  if current = "" ∧ new ≠ "" then new
  else if current ≠ "" ∧ new ≠ "" ∧ current.length < new.length then new
  else current

/-- The identity-field resolution the spec describes: scanning the values in
group order, the first non-empty value seeds the field and a later non-empty
value replaces it only if strictly longer. -/
def resolveField (values : List String) : String :=
  values.foldl mergeField ""

/-- The postulacion bundle contributed by one record (lines 231-246): kept
only when the record has at least one essay response. -/
def postulacionOf (r : RawRecord) : Option (String × List (String × String)) :=
  if r.essay_responses = [] then none else some (basename r.source, r.essay_responses)

/-- Model of the per-group merge (lines 194-255).  The merged record seeds
each identity field from the first group member and then runs the resolution
loop over every member (the first included, as the source does); telegram
values are re-normalised inside the loop, as in the source.  `sources` is
`list(set(...))` in the source, modelled as first-seen-order deduplication;
`nombre_normalized` is the first member's attached normalised name, which
(whether or not line 163 attached one) equals normalising its raw name. -/
def mergeGroup : List RawRecord → CanonicalPerson
  | [] => default
  | g0 :: rest =>
    let group := g0 :: rest
    { nombre := group.foldl (fun cur r => mergeField cur r.nombre) g0.nombre
      nombre_normalized := normalize_spanish_name g0.nombre
      correo := group.foldl (fun cur r => mergeField cur r.correo) g0.correo
      telegram := group.foldl (fun cur r => mergeField cur (normalizeTelegram r.telegram)) g0.telegram
      carrera := group.foldl (fun cur r => mergeField cur r.carrera) g0.carrera
      generacion := group.foldl (fun cur r => mergeField cur r.generacion) g0.generacion
      postulaciones := group.filterMap postulacionOf
      sources := pyDedup (group.map RawRecord.source)
      attendance := [] }

/-- Model of process_csv_files: extract (already done by the caller: the
input is the concatenated record list), filter, group, merge. -/
def process_csv_files (records : List RawRecord) : List CanonicalPerson :=
  (groupKeys records).map (fun k => mergeGroup (groupFor records k))

/-- The groups in dict order: the partition process_csv_files merges. -/
def groupsOf (records : List RawRecord) : List (List RawRecord) :=
  (groupKeys records).map (groupFor records)

/-- A sample record used in concrete instances: only the name varies. -/
def anaRecord (n : String) : RawRecord :=
  { nombre := n, correo := "ana@uc.cl", telegram := "", carrera := "",
    generacion := "", essay_responses := [], source := "f.csv" }

/-! ## Attendance table parsing (parse_markdown_table, lines 279-350) -/

/-- Model of Python `'|' in line`. -/
def hasPipe (s : String) : Bool := s.data.contains '|'

/-- The cell extraction applied to every table line (lines 294 and 305):
split on '|', strip each piece, keep the non-empty ones. -/
def parseCells (line : String) : List String :=
  ((pySplit '|' line).map pyStrip).filter (fun c => c != "")

/-- The index of the first line containing a pipe (lines 284-289); 0 when no
line does, exactly as the source's loop leaves start_idx at 0. -/
def startIdx (lines : List String) : Nat :=
  match lines.findIdx? hasPipe with
  | some i => i
  | none => 0

/-- The table header: the first retained line's cells.  The source indexes
lines[0]; an empty document (unreachable through the CLI) is given header []. -/
def headerOf (lines : List String) : List String :=
  parseCells ((lines.drop (startIdx lines)).headD "")

/-- The session rows the parser keeps (lines 300-309): from the third
retained line on, stripped, must contain a pipe and at least one non-empty
cell. -/
def keptRows (lines : List String) : List (List String) :=
  (lines.drop (startIdx lines + 2)).filterMap (fun l0 =>
    let line := pyStrip l0
    if line != "" && hasPipe line then
      match parseCells line with
      | [] => none
      | cells => some cells
    else none)

/-- A kept row's session label: its first cell (line 309). -/
def labelOf (cells : List String) : String := cells.headD ""

/-- Python dict assignment on an association list: replace in place or append. -/
def dictInsert {α : Type} (k : String) (v : α) : List (String × α) → List (String × α)
  | [] => [(k, v)]
  | (k', v') :: rest =>
      if k' = k then (k, v) :: rest else (k', v') :: dictInsert k v rest

/-- One session row's person→status dict (lines 313-318): positionally pairs
the header names from column 1 on with the row's non-blank cells (the blank
cells having been dropped by the cell extraction, later cells shift left). -/
def rowDict (header cells : List String) : List (String × String) :=
  (List.zip (header.drop 1) (cells.drop 1)).foldl (fun d kv => dictInsert kv.1 kv.2 d) []

/-- The sessions dict (lines 299-318): one entry per distinct session label,
a later duplicate label overwriting the earlier entry in place. -/
def sessionsOf (lines : List String) : List (String × List (String × String)) :=
  (keptRows lines).foldl
    (fun s cells => dictInsert (labelOf cells) (rowDict (headerOf lines) cells) s) []

/-- One person's recorded sessions (lines 331-334): the sessions dict entries
that mention the person. -/
def personSessions (lines : List String) (p : String) : List (String × String) :=
  (sessionsOf lines).filterMap (fun sd => (List.lookup p sd.2).map (fun v => (sd.1, v)))

/-- Round half to even, the rounding of Python's built-in round; the source
rounds a float, modelled here on exact rationals. -/
def roundHalfEven (q : ℚ) : ℤ :=
  let f := ⌊q⌋
  if q - f < 1/2 then f
  else if 1/2 < q - f then f + 1
  else if f % 2 = 0 then f else f + 1

/-- Model of Python `round(q, 2)`. -/
def pyRound2 (q : ℚ) : ℚ := (roundHalfEven (q * 100) : ℚ) / 100

/-- The per-person summary statistics (lines 336-348). -/
def statsFor (lines : List String) (p : String) : AttendanceStats :=
  let sess := personSessions lines p
  let total := (sessionsOf lines).length
  let attended := (sess.filter (fun sv => sv.2 = "A" || sv.2 = "X")).length
  let justified := (sess.filter (fun sv => sv.2 = "J")).length
  { total_sessions := total
    attended := attended
    justified := justified
    attendance_rate :=
      if total ≠ 0 then pyRound2 ((attended : ℚ) / (total : ℚ) * 100) else 0 }

/-- The course label (line 322): base file name with ".md" removed. -/
def courseOf (path : String) : String := (basename path).replace ".md" ""

/-- Model of parse_markdown_table: the per-person attendance records, keyed
by the header names from column 1 on (a Python dict, so duplicate header
names collapse). -/
def parse_markdown_table (path : String) (lines : List String) :
    List (String × AttendanceRecord) :=
  ((headerOf lines).drop 1).foldl
    (fun d p =>
      dictInsert p
        { course := courseOf path
          sessions := personSessions lines p
          stats := statsFor lines p } d) []

/-- The status a session row assigns to person p (the ground truth the claim
counts): the row dict's entry for p, if any. -/
def rowStatusFor (lines : List String) (p : String) (cells : List String) :
    Option String :=
  List.lookup p (rowDict (headerOf lines) cells)

/-- The concrete attendance table with a duplicated session label. -/
def dupLines : List String :=
  ["| Sesion | P1 |", "|---|---|", "| s1 | A |", "| s1 | X |"]

/-- The column-aligned reading of a table line, the ground truth of the
original claim: the cells in column order with blank cells kept, the first
and last pieces (artifacts of the boundary pipes) dropped. -/
def columnCells (line : String) : List String :=
  (((pySplit '|' line).map pyStrip).drop 1).dropLast

/-- A concrete table whose only session row has a blank cell for P1 and an
'A' for P2: the parser drops the blank cell and pairs the remaining cells
positionally with the header, crediting P2's status to P1. -/
def shiftLines : List String :=
  ["| Sesion | P1 | P2 |", "|---|---|---|", "| s1 | | A |"]

/-- The concrete ten-session one-person table of the claim's example:
7 'A', 1 'X', 2 blank, 0 'J'. -/
def exampleLines : List String :=
  ["| Sesion | P1 |", "|---|---|",
   "| s1 | A |", "| s2 | A |", "| s3 | A |", "| s4 | A |", "| s5 | A |",
   "| s6 | A |", "| s7 | A |", "| s8 | X |", "| s9 | |", "| s10 | |"]

/-! ## Question slugs (simplify_question, lines 7-42) -/

/-- The decorative symbols stripped from question headers, byte-for-byte as
they appear in the source file. -/
def emojis : List String :=
  ["ðŸ‘¤", "âœ‰ï¸", "ðŸ“²", "ðŸŽ“", "ðŸ‘‹", "ðŸ¤”", "ðŸ‘©â€ðŸ’»", "ðŸ’¬", "ðŸ“", "ðŸ¤–", "ðŸ™Œ"]

/-- Does the pattern start the list? -/
def startsWithPat : List Char → List Char → Bool
  | [], _ => true
  | _ :: _, [] => false
  | p :: ps, c :: cs => p = c && startsWithPat ps cs

/-- Fuel-driven left-to-right removal of every occurrence of a pattern, the
model of Python `s.replace(pat, "")`; the fuel is the input length, enough
for every step. -/
def removeOccAux (pat : List Char) : Nat → List Char → List Char
  | _, [] => []
  | 0, l => l
  | n + 1, c :: cs =>
      if startsWithPat pat (c :: cs) then removeOccAux pat n (List.drop (pat.length - 1) cs)
      else c :: removeOccAux pat n cs

/-- Model of Python `s.replace(pat, "")` for a non-empty pattern. -/
def removeOcc (pat : List Char) (l : List Char) : List Char :=
  if pat = [] then l else removeOccAux pat l.length l

/-- The emoji-removal loop (lines 13-14). -/
def removeEmojis (q : String) : String :=
  emojis.foldl (fun s e => (⟨removeOcc e.data s.data⟩ : String)) q

/-- Model of the regex class `\w` over the program's alphabet: ASCII
alphanumerics, the underscore, and the Latin-1 letters. -/
def pyIsWordCharB (c : Char) : Bool :=
  c.isAlphanum || c = '_'
  || (192 ≤ c.toNat && c.toNat ≤ 255 && c.toNat != 215 && c.toNat != 247)
  || c.toNat = 170 || c.toNat = 181 || c.toNat = 186

/-- Model of `re.sub(r'\s+', '_', s)`: each maximal whitespace run becomes
one underscore.  The flag records whether the previous character was part of
a run already replaced. -/
def collapseSpacesGo : Bool → List Char → List Char
  | _, [] => []
  | prevSpace, c :: cs =>
      if isSpaceB c then
        if prevSpace then collapseSpacesGo true cs
        else '_' :: collapseSpacesGo true cs
      else c :: collapseSpacesGo false cs

/-- Model of `re.sub(r'\s+', '_', s)` on character lists. -/
def collapseSpaces (l : List Char) : List Char := collapseSpacesGo false l

/-- Model of Python `str.split()` (split on whitespace runs, no empties),
accumulating the current word in reverse. -/
def wordsGo (cur : List Char) : List Char → List (List Char)
  | [] => if cur = [] then [] else [cur.reverse]
  | c :: cs =>
      if isSpaceB c then
        if cur = [] then wordsGo [] cs else cur.reverse :: wordsGo [] cs
      else wordsGo (c :: cur) cs

/-- Model of Python `str.split()`. -/
def pyWords (s : String) : List String :=
  (wordsGo [] s.data).map (fun l => (⟨l⟩ : String))

/-- The greedy word-budget loop (lines 22-30): keep words while the running
total (word lengths plus one separator each) stays within 25. -/
def fitWords : Nat → List String → List String
  | _, [] => []
  | total, w :: ws =>
      if total + w.length ≤ 25 then w :: fitWords (total + w.length + 1) ws
      else []

/-- Model of `" ".join(ws)`. -/
def joinSpace : List String → String
  | [] => ""
  | [w] => w
  | w :: ws => w ++ " " ++ joinSpace ws

/-- The common tail of the slug pipeline (lines 38-42): strip punctuation
(keep word characters and whitespace), turn whitespace runs into
underscores, lower-case. -/
def slugBase (s : String) : String :=
  pyLower ⟨collapseSpaces (s.data.filter (fun c => pyIsWordCharB c || isSpaceB c))⟩

/-- Model of simplify_question: remove decorative symbols, strip, truncate
long questions at a word boundary (appending "..."), then strip punctuation,
join with underscores and lower-case. -/
def simplify_question (question : String) : String :=
  let q2 := pyStrip (removeEmojis question)
  let q3 :=
    if 30 < q2.length then
      let ws := pyWords q2
      let shortened := fitWords 0 ws
      if shortened.length < ws.length then joinSpace shortened ++ "..."
      else joinSpace shortened
    else q2
  slugBase q3

/-- A long header exercising the truncation branch. -/
def longHeader : String := "this is a very long question about stuff"

/-! ## Fuzzy name matching (match_person_name, lines 365-421) -/

/-- The stop words removed before Jaccard scoring (line 375), byte-for-byte
as in the source (the ninth entry is mojibake in the source file too). -/
def common_words : List String :=
  ["de", "del", "la", "las", "los", "y", "e", "don", "doÃ±a", "dr", "dra"]

/-- The stop-word-filtered word set of a name (lines 368-380 and 388-397):
the set of words of the normalised name, minus the stop words — unless that
leaves nothing, in which case the unfiltered set is kept. -/
def filteredWordSet (s : String) : Finset String :=
  let ws := (pyWords (normalize_spanish_name s)).toFinset
  let fw := ws.filter (fun w => w ∉ common_words)
  if fw = ∅ then ws else fw

/-- Jaccard similarity of two word sets (lines 404-408), as an exact
rational (the source computes it in floating point). -/
def jaccardNum (a b : Finset String) : ℚ :=
  ((a ∩ b).card : ℚ) / ((a ∪ b).card : ℚ)

/-- The score a candidate contributes to the best-match search: its Jaccard
similarity when the word sets intersect, else 0 (a candidate with empty
intersection never updates the running best, line 411). -/
def scoreOf (nameWords : Finset String) (person : String) : ℚ :=
  let pw := filteredWordSet person
  if 0 < (nameWords ∩ pw).card then jaccardNum nameWords pw else 0

/-- The best score over all candidates with non-zero intersection; 0 when
there is none. -/
def bestScoreOver (nameWords : Finset String) (people : List String) : ℚ :=
  (people.map (scoreOf nameWords)).foldr max 0

/-- The candidate loop of match_person_name (lines 386-421): exact match
returns immediately; otherwise the strictly-best-scoring candidate with
non-zero intersection is retained, and at the end the threshold test
(score ≥ 1/2, or positive score with at most two query words) decides. -/
def matchAux (nameLower nameNorm : String) (nameWords : Finset String) :
    List String → Nat → Option Nat → ℚ → Option Nat
  | [], _, best, bestScore =>
      if bestScore ≥ 1/2 ∨ (0 < bestScore ∧ nameWords.card ≤ 2) then best else none
  | p :: rest, idx, best, bestScore =>
      if nameLower = pyStrip (pyLower p) ∨ nameNorm = normalize_spanish_name p then
        some idx
      else
        let pw := filteredWordSet p
        let i := (nameWords ∩ pw).card
        let u := (nameWords ∪ pw).card
        if 0 < u ∧ 0 < i ∧ bestScore < (i : ℚ) / (u : ℚ) then
          matchAux nameLower nameNorm nameWords rest (idx + 1) (some idx) ((i : ℚ) / (u : ℚ))
        else matchAux nameLower nameNorm nameWords rest (idx + 1) best bestScore

/-- Model of match_person_name over the candidates' names. -/
def match_person_name (name : String) (people : List String) : Option Nat :=
  matchAux (pyStrip (pyLower name)) (normalize_spanish_name name)
    (filteredWordSet name) people 0 none 0

/-! ## Attaching attendance (update_json_with_attendance,
process_attendance_files, lines 423-472) -/

/-- Model of `filename.endswith('.md')`. -/
def endsWithMd (s : String) : Bool := startsWithPat ['d', 'm', '.'] s.data.reverse

/-- Model of update_json_with_attendance: for each attendance entry, match
its name against the registry and append the attendance record to the match.
The source also copies attendance["source"] into the person's sources, but
parse_markdown_table never sets a "source" key, so that branch is dead and
has no model. -/
def update_json_with_attendance (people : List CanonicalPerson)
    (attendance_data : List (String × AttendanceRecord)) : List CanonicalPerson :=
  attendance_data.foldl
    (fun ps na =>
      match match_person_name na.1 (ps.map CanonicalPerson.nombre) with
      | some idx =>
          List.modify
            (fun person => { person with attendance := person.attendance ++ [na.2] })
            idx ps
      | none => ps)
    people

/-- Model of process_attendance_files: `dirExists` models
`os.path.exists(attendance_dir)`, `files` the directory listing as
(path, lines) pairs.  A missing directory returns the registry unchanged;
otherwise each ".md" file is parsed, attendance attached, and the file path
added to each matched person's sources (lines 452-470). -/
def process_attendance_files (dirExists : Bool) (files : List (String × List String))
    (people : List CanonicalPerson) : List CanonicalPerson :=
  if !dirExists then people
  else
    files.foldl
      (fun ps file =>
        if endsWithMd file.1 then
          let att := parse_markdown_table file.1 file.2
          let ps1 := update_json_with_attendance ps att
          att.foldl
            (fun ps2 na =>
              match match_person_name na.1 (ps2.map CanonicalPerson.nombre) with
              | some idx =>
                  List.modify
                    (fun person =>
                      if file.1 ∈ person.sources then person
                      else { person with sources := person.sources ++ [file.1] })
                    idx ps2
              | none => ps2)
            ps1
        else ps)
      people

/-! ## The obfuscation utility (crypt.py).  SHA-256 and PBKDF2 are not
re-implemented: every definition takes the hash (`hash32`) and the key
derivation (`kdf`) as parameters; the round-trip property holds for any hash
with 32-byte output, hence for SHA-256. -/

/-- Model of Python `n.to_bytes(w, 'big')`. -/
def natToBytesBE : Nat → Nat → List Nat
  | 0, _ => []
  | w + 1, n => natToBytesBE w (n / 256) ++ [n % 256]

/-- Model of Python `int.from_bytes(l, 'big')`. -/
def natFromBytesBE (l : List Nat) : Nat := l.foldl (fun acc b => acc * 256 + b) 0

/-- The keystream block chain (lines 40-44 and 85-89): each block is
hash(key ++ previous block), starting from the nonce. -/
def ksBlocks (hash32 : List Nat → List Nat) (key : List Nat) :
    List Nat → Nat → List Nat
  | _, 0 => []
  | temp, k + 1 =>
      let t := hash32 (key ++ temp)
      t ++ ksBlocks hash32 key t k

/-- The keystream truncated to the required length (lines 40-47).  The source
loops while the stream is shorter than the plaintext; generating one block
per required byte and truncating yields the same bytes, since the block
chain is deterministic and the extra blocks fall beyond the truncation. -/
def keystream (hash32 : List Nat → List Nat) (key nonce : List Nat) (n : Nat) :
    List Nat :=
  (ksBlocks hash32 key nonce n).take n

/-- The UTF-8 bytes of the literal "nonce" appended to the filename
(lines 37 and 82). -/
def nonceSuffix : List Nat := [110, 111, 110, 99, 101]

/-- The deterministic per-file nonce: sha256(filename + "nonce")[:16]. -/
def fileNonce (hash32 : List Nat → List Nat) (filenameBytes : List Nat) : List Nat :=
  (hash32 (filenameBytes ++ nonceSuffix)).take 16

/-- Model of encrypt_file (lines 25-63): the output bytes are the 16-byte
big-endian filename length, the filename bytes, then plaintext XOR keystream. -/
def encrypt_file (hash32 : List Nat → List Nat) (kdf : String → List Nat)
    (plaintext filenameBytes : List Nat) (passphrase : String) : List Nat :=
  let key := kdf passphrase
  let nonce := fileNonce hash32 filenameBytes
  let ks := keystream hash32 key nonce plaintext.length
  let encrypted := List.zipWith Nat.xor plaintext ks
  natToBytesBE 16 filenameBytes.length ++ filenameBytes ++ encrypted

/-- Model of decrypt_file (lines 65-101): read the filename length and
filename, rebuild the keystream from the stored filename and the passphrase,
XOR the payload. -/
def decrypt_file (hash32 : List Nat → List Nat) (kdf : String → List Nat)
    (fileBytes : List Nat) (passphrase : String) : List Nat :=
  let flen := natFromBytesBE (fileBytes.take 16)
  let rest := fileBytes.drop 16
  let filenameBytes := rest.take flen
  let encrypted := rest.drop flen
  let key := kdf passphrase
  let nonce := fileNonce hash32 filenameBytes
  let ks := keystream hash32 key nonce encrypted.length
  List.zipWith Nat.xor encrypted ks

/-- A stand-in 32-byte hash used to instantiate the round-trip theorem. -/
def zeroHash (x : List Nat) : List Nat := List.replicate 32 (x.length % 256)

/-! ## Facts about the primitives -/

theorem toNat_charOfNat (n : Nat) (h : n < 55296) : (Char.ofNat n).toNat = n := by
  unfold Char.ofNat
  rw [dif_pos (Or.inl h)]
  rfl

theorem dropWhile_dropWhile (p : Char → Bool) (l : List Char) :
    (l.dropWhile p).dropWhile p = l.dropWhile p := by
  induction l with
  | nil => rfl
  | cons a as ih =>
      by_cases h : p a
      · simp [List.dropWhile_cons, h, ih]
      · simp [List.dropWhile_cons, h]

theorem dropTrailing_dropTrailing (l : List Char) :
    dropTrailing (dropTrailing l) = dropTrailing l := by
  unfold dropTrailing
  rw [List.reverse_reverse, dropWhile_dropWhile]

theorem dropWhile_eq_cons_head_false {p : Char → Bool} {l : List Char} {a : Char}
    {as : List Char} (h : l.dropWhile p = a :: as) : p a = false := by
  induction l with
  | nil => simp at h
  | cons x xs ih =>
      rw [List.dropWhile_cons] at h
      by_cases hx : p x
      · rw [if_pos hx] at h
        exact ih h
      · rw [if_neg hx] at h
        cases h
        simpa using hx

theorem dropTrailing_cons (a : Char) (as : List Char) :
    dropTrailing (a :: as) =
      if dropTrailing as = [] then (if isSpaceB a then [] else [a])
      else a :: dropTrailing as := by
  unfold dropTrailing
  rw [List.reverse_cons, List.dropWhile_append]
  by_cases h : (as.reverse.dropWhile isSpaceB).isEmpty
  · rw [if_pos h]
    rw [List.isEmpty_iff] at h
    rw [if_pos (by rw [h]; rfl)]
    rw [List.dropWhile_cons]
    by_cases ha : isSpaceB a
    · rw [if_pos ha, if_pos ha]
      rfl
    · rw [if_neg ha, if_neg ha]
      rfl
  · rw [if_neg h]
    have hne : as.reverse.dropWhile isSpaceB ≠ [] := by
      intro hc
      rw [List.isEmpty_iff] at h
      exact h hc
    rw [if_neg (by simpa [List.reverse_eq_nil_iff] using hne)]
    rw [List.reverse_append]
    rfl

theorem dropLeading_dropTrailing_dropLeading (l : List Char) :
    dropLeading (dropTrailing (dropLeading l)) = dropTrailing (dropLeading l) := by
  rcases hA : dropLeading l with _ | ⟨a, as⟩
  · rfl
  · have ha : isSpaceB a = false := dropWhile_eq_cons_head_false hA
    rw [dropTrailing_cons]
    by_cases h : dropTrailing as = []
    · rw [if_pos h, if_neg (by simp [ha])]
      unfold dropLeading
      simp [List.dropWhile_cons, ha]
    · rw [if_neg h]
      unfold dropLeading
      simp [List.dropWhile_cons, ha]

theorem trimChars_trimChars (l : List Char) : trimChars (trimChars l) = trimChars l := by
  unfold trimChars
  rw [dropLeading_dropTrailing_dropLeading, dropTrailing_dropTrailing]

theorem mem_dropTrailing {a : Char} {l : List Char} (h : a ∈ dropTrailing l) : a ∈ l := by
  unfold dropTrailing at h
  rw [List.mem_reverse] at h
  have hsub := @List.dropWhile_sublist Char l.reverse isSpaceB
  have hmem := hsub.mem h
  rwa [List.mem_reverse] at hmem

theorem mem_trimChars {a : Char} {l : List Char} (h : a ∈ trimChars l) : a ∈ l := by
  unfold trimChars dropLeading at h
  have h1 := mem_dropTrailing h
  exact (@List.dropWhile_sublist Char l isSpaceB).mem h1

theorem stripAccent_fix_of_small (c : Char) (h : c.toNat < 193) :
    stripAccentChar c = c := by
  unfold stripAccentChar
  rw [if_neg, if_neg, if_neg, if_neg, if_neg, if_neg, if_neg, if_neg, if_neg,
    if_neg, if_neg, if_neg, if_neg, if_neg]
  all_goals intro he
  all_goals rw [he] at h
  all_goals exact absurd h (by decide)

theorem cleanChar_of_plain (c : Char) (h1 : c.toNat < 193)
    (h2 : ¬ (65 ≤ c.toNat ∧ c.toNat ≤ 90)) : cleanCharB c = true := by
  unfold cleanCharB
  simp only [Bool.and_eq_true, Bool.not_eq_true', decide_eq_true_eq]
  refine ⟨⟨?_, stripAccent_fix_of_small c h1⟩, ?_⟩
  · unfold isCombiningB
    simp only [Bool.and_eq_false_iff, decide_eq_false_iff_not]
    left
    omega
  · unfold asciiLowerChar
    rw [if_neg h2]

set_option maxHeartbeats 2000000 in
theorem cleanChar_output (c : Char) (hc : isCombiningB c = false) :
    cleanCharB (asciiLowerChar (stripAccentChar c)) = true := by
  unfold stripAccentChar
  by_cases h1 : c = 'á'
  · rw [if_pos h1]
    decide
  rw [if_neg h1]
  by_cases h2 : c = 'é'
  · rw [if_pos h2]
    decide
  rw [if_neg h2]
  by_cases h3 : c = 'í'
  · rw [if_pos h3]
    decide
  rw [if_neg h3]
  by_cases h4 : c = 'ó'
  · rw [if_pos h4]
    decide
  rw [if_neg h4]
  by_cases h5 : c = 'ú'
  · rw [if_pos h5]
    decide
  rw [if_neg h5]
  by_cases h6 : c = 'ü'
  · rw [if_pos h6]
    decide
  rw [if_neg h6]
  by_cases h7 : c = 'ñ'
  · rw [if_pos h7]
    decide
  rw [if_neg h7]
  by_cases h8 : c = 'Á'
  · rw [if_pos h8]
    decide
  rw [if_neg h8]
  by_cases h9 : c = 'É'
  · rw [if_pos h9]
    decide
  rw [if_neg h9]
  by_cases h10 : c = 'Í'
  · rw [if_pos h10]
    decide
  rw [if_neg h10]
  by_cases h11 : c = 'Ó'
  · rw [if_pos h11]
    decide
  rw [if_neg h11]
  by_cases h12 : c = 'Ú'
  · rw [if_pos h12]
    decide
  rw [if_neg h12]
  by_cases h13 : c = 'Ü'
  · rw [if_pos h13]
    decide
  rw [if_neg h13]
  by_cases h14 : c = 'Ñ'
  · rw [if_pos h14]
    decide
  rw [if_neg h14]
  unfold asciiLowerChar
  by_cases hu : 65 ≤ c.toNat ∧ c.toNat ≤ 90
  · rw [if_pos hu]
    have ht : (Char.ofNat (c.toNat + 32)).toNat = c.toNat + 32 :=
      toNat_charOfNat _ (by omega)
    apply cleanChar_of_plain
    · omega
    · omega
  · rw [if_neg hu]
    unfold cleanCharB
    simp only [Bool.and_eq_true, Bool.not_eq_true', decide_eq_true_eq]
    refine ⟨⟨hc, ?_⟩, ?_⟩
    · unfold stripAccentChar
      rw [if_neg h1, if_neg h2, if_neg h3, if_neg h4, if_neg h5, if_neg h6,
        if_neg h7, if_neg h8, if_neg h9, if_neg h10, if_neg h11, if_neg h12,
        if_neg h13, if_neg h14]
    · unfold asciiLowerChar
      rw [if_neg hu]
theorem clean_parts {c : Char} (h : cleanCharB c = true) :
    isCombiningB c = false ∧ stripAccentChar c = c ∧ asciiLowerChar c = c := by
  unfold cleanCharB at h
  simp only [Bool.and_eq_true, Bool.not_eq_true', decide_eq_true_eq] at h
  exact ⟨h.1.1, h.1.2, h.2⟩

theorem mem_normalize_clean (s : String) {c : Char}
    (h : c ∈ (normalize_spanish_name s).data) : cleanCharB c = true := by
  unfold normalize_spanish_name at h
  have h1 := mem_trimChars h
  rw [List.mem_map] at h1
  rcases h1 with ⟨d, hd, rfl⟩
  rw [List.mem_filterMap] at hd
  rcases hd with ⟨e, _, he⟩
  unfold decompChar at he
  by_cases hce : isCombiningB e
  · rw [if_pos hce] at he
    cases he
  · rw [if_neg hce] at he
    cases he
    exact cleanChar_output e (by simpa using hce)

theorem decompChar_clean {c : Char} (h : cleanCharB c = true) :
    decompChar c = some c := by
  have hp := clean_parts h
  unfold decompChar
  rw [hp.1]
  simp only [Bool.false_eq_true, if_false, hp.2.1]

theorem filterMap_decomp_of_clean {l : List Char} (h : ∀ c ∈ l, cleanCharB c = true) :
    l.filterMap decompChar = l := by
  induction l with
  | nil => rfl
  | cons a as ih =>
      rw [List.filterMap_cons, decompChar_clean (h a (by simp)),
        ih fun c hc => h c (by simp [hc])]

theorem map_ascii_of_clean {l : List Char} (h : ∀ c ∈ l, cleanCharB c = true) :
    l.map asciiLowerChar = l := by
  induction l with
  | nil => rfl
  | cons a as ih =>
      have ha := clean_parts (h a (by simp))
      rw [List.map_cons, ha.2.2, ih fun c hc => h c (by simp [hc])]

theorem normalize_normalize (s : String) :
    normalize_spanish_name (normalize_spanish_name s) = normalize_spanish_name s := by
  apply String.ext
  have hclean : ∀ c ∈ (normalize_spanish_name s).data, cleanCharB c = true :=
    fun c hc => mem_normalize_clean s hc
  show (trimChars (((normalize_spanish_name s).data.filterMap decompChar).map asciiLowerChar)) = _
  rw [filterMap_decomp_of_clean hclean, map_ascii_of_clean hclean]
  show trimChars (trimChars _) = _
  rw [trimChars_trimChars]
  rfl

/-- C7: `normalize_spanish_name` is idempotent, and case/accent-insensitive on
the example names: normalising "María", "MARIA" and "maria" all give the same
result. -/
theorem normalize_spanish_name_idempotent_insensitive :
    (∀ x : String,
      normalize_spanish_name (normalize_spanish_name x) = normalize_spanish_name x) ∧
    normalize_spanish_name "María" = normalize_spanish_name "MARIA" ∧
    normalize_spanish_name "MARIA" = normalize_spanish_name "maria" := by
  refine ⟨normalize_normalize, ?_, ?_⟩
  · decide
  · decide
/-! ## Telegram normalisation (C6) -/

/-- C6: for every non-empty value, the handle normalisation maps a recognised
no-handle token (compared lower-cased and trimmed) to the empty string and
otherwise removes all spaces and enforces a leading "@"; in particular
"no tengo" becomes empty, "juanperez" gains the marker and "@juanperez" is
unchanged. -/
theorem telegram_normalisation (v : String) (hv : v ≠ "") :
    (pyStrip (pyLower v) ∈ no_telegram_indicators → normalizeTelegram v = "") ∧
    (pyStrip (pyLower v) ∉ no_telegram_indicators →
      normalizeTelegram v =
        (if hasAtMark (removeSpaces v) then removeSpaces v
         else "@" ++ removeSpaces v)) ∧
    normalizeTelegram "no tengo" = "" ∧
    normalizeTelegram "juanperez" = "@juanperez" ∧
    normalizeTelegram "@juanperez" = "@juanperez" := by
  refine ⟨?_, ?_, by decide, by decide, by decide⟩
  · intro hm
    unfold normalizeTelegram
    rw [if_neg hv, if_pos hm]
  · intro hm
    unfold normalizeTelegram
    rw [if_neg hv, if_neg hm]

theorem telegram_normalisation_witness : normalizeTelegram " No " = "" :=
  (telegram_normalisation " No " (by decide)).1 (by decide)

/-! ## Identity-field resolution at merge (C1) -/

theorem mergeField_self (v : String) : mergeField v v = v := by
  unfold mergeField
  split_ifs with h1 h2
  · exact absurd h1.1 h1.2
  · exact absurd h2.2.2 (lt_irrefl _)
  · rfl

theorem mergeField_empty (v : String) : mergeField "" v = v := by
  unfold mergeField
  split_ifs with h1 h2
  · rfl
  · exact absurd rfl h2.1
  · by_cases hv : v = ""
    · exact hv.symm
    · exact absurd ⟨rfl, hv⟩ h1

theorem foldl_mergeField_group (f : RawRecord → String) (g0 : RawRecord)
    (rest : List RawRecord) :
    (g0 :: rest).foldl (fun cur r => mergeField cur (f r)) (f g0) =
      resolveField ((g0 :: rest).map f) := by
  unfold resolveField
  rw [List.map_cons, List.foldl_cons, List.foldl_cons, mergeField_empty,
    mergeField_self, List.foldl_map]

theorem foldl_mergeField_congr (f g : RawRecord → String) (l : List RawRecord)
    (i : String) (h : ∀ r ∈ l, f r = g r) :
    l.foldl (fun cur r => mergeField cur (f r)) i =
      l.foldl (fun cur r => mergeField cur (g r)) i := by
  induction l generalizing i with
  | nil => rfl
  | cons a as ih =>
      rw [List.foldl_cons, List.foldl_cons, h a (by simp)]
      exact ih _ fun r hr => h r (by simp [hr])

/-- C1: for every non-empty identity group whose telegram values already carry
the extraction-time normalisation, each of the five identity fields of the
merged person is resolved independently in group input order — the first
non-empty value seeds the field and a later non-empty value replaces it only
if strictly longer in characters (ties keep the earlier value), which is the
fold `resolveField`; and merging records named "Ana", "Ana María", "An" in
that order yields the name "Ana María". -/
theorem merged_fields_resolved (g0 : RawRecord) (rest : List RawRecord)
    (hnorm : ∀ r ∈ g0 :: rest, normalizeTelegram r.telegram = r.telegram) :
    ((mergeGroup (g0 :: rest)).nombre = resolveField ((g0 :: rest).map RawRecord.nombre) ∧
     (mergeGroup (g0 :: rest)).correo = resolveField ((g0 :: rest).map RawRecord.correo) ∧
     (mergeGroup (g0 :: rest)).telegram = resolveField ((g0 :: rest).map RawRecord.telegram) ∧
     (mergeGroup (g0 :: rest)).carrera = resolveField ((g0 :: rest).map RawRecord.carrera) ∧
     (mergeGroup (g0 :: rest)).generacion = resolveField ((g0 :: rest).map RawRecord.generacion)) ∧
    (mergeGroup [anaRecord "Ana", anaRecord "Ana María", anaRecord "An"]).nombre
      = "Ana María" := by
  refine ⟨⟨?_, ?_, ?_, ?_, ?_⟩, by decide⟩
  · exact foldl_mergeField_group RawRecord.nombre g0 rest
  · exact foldl_mergeField_group RawRecord.correo g0 rest
  · show (g0 :: rest).foldl (fun cur r => mergeField cur (normalizeTelegram r.telegram))
        g0.telegram = _
    rw [foldl_mergeField_congr (fun r => normalizeTelegram r.telegram)
      (fun r => r.telegram) (g0 :: rest) g0.telegram hnorm]
    exact foldl_mergeField_group RawRecord.telegram g0 rest
  · exact foldl_mergeField_group RawRecord.carrera g0 rest
  · exact foldl_mergeField_group RawRecord.generacion g0 rest

theorem merged_fields_resolved_witness :
    (mergeGroup [anaRecord "Ana", anaRecord "Ana María"]).nombre
      = resolveField ([anaRecord "Ana", anaRecord "Ana María"].map RawRecord.nombre) :=
  (merged_fields_resolved (anaRecord "Ana") [anaRecord "Ana María"]
    (by intro r hr; fin_cases hr <;> rfl)).1.1

/-! ## Grouping is a partition (C3) -/

theorem mem_pyDedup (a : String) (l : List String) : a ∈ pyDedup l ↔ a ∈ l := by
  induction l with
  | nil => rfl
  | cons b bs ih =>
      unfold pyDedup
      by_cases hab : a = b
      · subst hab
        simp
      · simp only [List.mem_cons, List.mem_filter, ih, bne_iff_ne]
        constructor
        · rintro (h | ⟨h, -⟩)
          · exact Or.inl h
          · exact Or.inr h
        · rintro (h | h)
          · exact Or.inl h
          · exact Or.inr ⟨h, hab⟩

theorem nodup_pyDedup (l : List String) : (pyDedup l).Nodup := by
  induction l with
  | nil => exact List.nodup_nil
  | cons b bs ih =>
      unfold pyDedup
      refine List.Nodup.cons ?_ (ih.filter _)
      intro hb
      rw [List.mem_filter] at hb
      have hbb : (b != b) = true := hb.2
      simp at hbb

theorem count_map_eq_filter_length (l : List RawRecord) (f : RawRecord → String)
    (k : String) : (l.map f).count k = (l.filter (fun r => f r = k)).length := by
  rw [List.count, List.countP_map, ← List.countP_eq_length_filter]
  apply List.countP_congr
  intro a _
  by_cases h : f a = k <;> simp [h]

/-- C3: the records dropped before grouping are exactly those whose stripped
name, email and telegram are all empty; every surviving record lies in exactly
one group (keyed by normalised email when non-empty, else by the synthetic
name+telegram key); and the group sizes sum to the number of survivors. -/
theorem grouping_partition (records : List RawRecord) :
    (∀ r ∈ records,
        (r ∈ survivors records ↔
          ¬(pyStrip r.correo = "" ∧ pyStrip r.nombre = "" ∧ pyStrip r.telegram = ""))) ∧
    (∀ r ∈ survivors records, ∃! g, g ∈ groupsOf records ∧ r ∈ g) ∧
    ((groupsOf records).map List.length).sum = (survivors records).length := by
  refine ⟨?_, ?_, ?_⟩
  · intro r hr
    unfold survivors
    rw [List.mem_filter]
    unfold survives
    simp only [hr, true_and, Bool.or_eq_true, bne_iff_ne]
    tauto
  · intro r hr
    refine ⟨groupFor records (groupKey r), ⟨?_, ?_⟩, ?_⟩
    · unfold groupsOf
      rw [List.mem_map]
      refine ⟨groupKey r, ?_, rfl⟩
      unfold groupKeys
      rw [mem_pyDedup, List.mem_map]
      exact ⟨r, hr, rfl⟩
    · unfold groupFor
      rw [List.mem_filter]
      exact ⟨hr, by simp⟩
    · rintro g ⟨hg, hrg⟩
      unfold groupsOf at hg
      rw [List.mem_map] at hg
      rcases hg with ⟨k, -, rfl⟩
      unfold groupFor at hrg ⊢
      rw [List.mem_filter] at hrg
      have : groupKey r = k := by simpa using hrg.2
      rw [this]
  · unfold groupsOf
    rw [List.map_map]
    have hlen : (List.length ∘ groupFor records) = fun k =>
        ((survivors records).map groupKey).count k := by
      funext k
      show (groupFor records k).length = _
      unfold groupFor
      rw [count_map_eq_filter_length]
    rw [hlen]
    have hnodup : (groupKeys records).Nodup := nodup_pyDedup _
    rw [← List.sum_toFinset _ hnodup]
    have hfs : (groupKeys records).toFinset = ((survivors records).map groupKey).toFinset := by
      ext a
      simp only [List.mem_toFinset]
      unfold groupKeys
      rw [mem_pyDedup]
    rw [hfs, List.sum_toFinset_count_eq_length, List.length_map]

/-! ## Order-insensitivity of the pipeline (C8) -/

theorem toFinset_of_perm {α : Type} [DecidableEq α] {l₁ l₂ : List α}
    (h : l₁.Perm l₂) : l₁.toFinset = l₂.toFinset := by
  ext a
  simp [h.mem_iff]

theorem toFinset_pyDedup (l : List String) : (pyDedup l).toFinset = l.toFinset := by
  ext a
  simp only [List.mem_toFinset]
  exact mem_pyDedup a l

theorem mergeGroup_sources (g : List RawRecord) :
    (mergeGroup g).sources = pyDedup (g.map RawRecord.source) := by
  cases g <;> rfl

theorem mergeGroup_postulaciones (g : List RawRecord) :
    (mergeGroup g).postulaciones = g.filterMap postulacionOf := by
  cases g <;> rfl

/-- C8: two pipeline runs on permuted inputs produce, for every group key,
the same set of sources and the same multiset of postulaciones, and the same
set of group keys. -/
theorem pipeline_order_insensitive (l₁ l₂ : List RawRecord) (h : l₁.Perm l₂)
    (k : String) :
    (groupKeys l₁).toFinset = (groupKeys l₂).toFinset ∧
    ((mergeGroup (groupFor l₁ k)).sources).toFinset
      = ((mergeGroup (groupFor l₂ k)).sources).toFinset ∧
    ((mergeGroup (groupFor l₁ k)).postulaciones :
        Multiset (String × List (String × String)))
      = ((mergeGroup (groupFor l₂ k)).postulaciones : Multiset _) := by
  have hs : (survivors l₁).Perm (survivors l₂) := h.filter survives
  have hg : (groupFor l₁ k).Perm (groupFor l₂ k) := hs.filter _
  refine ⟨?_, ?_, ?_⟩
  · unfold groupKeys
    rw [toFinset_pyDedup, toFinset_pyDedup]
    exact toFinset_of_perm (hs.map groupKey)
  · rw [mergeGroup_sources, mergeGroup_sources, toFinset_pyDedup, toFinset_pyDedup]
    exact toFinset_of_perm (hg.map RawRecord.source)
  · rw [mergeGroup_postulaciones, mergeGroup_postulaciones]
    exact Multiset.coe_eq_coe.mpr (hg.filterMap postulacionOf)

theorem pipeline_order_insensitive_witness :
    (groupKeys [anaRecord "Ana", anaRecord "Ana María"]).toFinset
      = (groupKeys [anaRecord "Ana María", anaRecord "Ana"]).toFinset ∧
    ((mergeGroup (groupFor [anaRecord "Ana", anaRecord "Ana María"] "ana@uc.cl")).sources).toFinset
      = ((mergeGroup (groupFor [anaRecord "Ana María", anaRecord "Ana"] "ana@uc.cl")).sources).toFinset ∧
    ((mergeGroup (groupFor [anaRecord "Ana", anaRecord "Ana María"] "ana@uc.cl")).postulaciones :
        Multiset (String × List (String × String)))
      = ((mergeGroup (groupFor [anaRecord "Ana María", anaRecord "Ana"] "ana@uc.cl")).postulaciones :
        Multiset _) :=
  pipeline_order_insensitive [anaRecord "Ana", anaRecord "Ana María"]
    [anaRecord "Ana María", anaRecord "Ana"] (by decide) "ana@uc.cl"

/-! ## Attendance statistics (C4) -/

theorem dictInsert_not_mem {α : Type} (k : String) (v : α) (d : List (String × α))
    (h : k ∉ d.map Prod.fst) : dictInsert k v d = d ++ [(k, v)] := by
  induction d with
  | nil => rfl
  | cons a es ih =>
      obtain ⟨ka, va⟩ := a
      unfold dictInsert
      rw [List.map_cons, List.mem_cons] at h
      push_neg at h
      rw [if_neg (by simpa using h.1.symm), ih h.2]
      rfl

theorem foldl_dictInsert_cells (hdr : List String) (rows : List (List String)) :
    ∀ init : List (String × List (String × String)), (rows.map labelOf).Nodup →
    (∀ k ∈ rows.map labelOf, k ∉ init.map Prod.fst) →
    rows.foldl (fun s cells => dictInsert (labelOf cells) (rowDict hdr cells) s) init
      = init ++ rows.map (fun cells => (labelOf cells, rowDict hdr cells)) := by
  induction rows with
  | nil => intro init _ _; simp
  | cons cells rest ih =>
      intro init hnd hfresh
      rw [List.foldl_cons]
      rw [List.map_cons] at hnd hfresh
      have hk : labelOf cells ∉ init.map Prod.fst := hfresh _ (by simp)
      rw [dictInsert_not_mem _ _ init hk]
      rw [ih (init ++ [(labelOf cells, rowDict hdr cells)]) hnd.of_cons ?_]
      · rw [List.append_assoc]
        rfl
      · intro k' hk'
        rw [List.map_append, List.mem_append]
        push_neg
        refine ⟨hfresh k' (by simp [hk']), ?_⟩
        have hne : k' ≠ labelOf cells := by
          intro he
          subst he
          exact (List.nodup_cons.mp hnd).1 hk'
        simpa using hne

theorem sessionsOf_of_nodup (lines : List String)
    (h : ((keptRows lines).map labelOf).Nodup) :
    sessionsOf lines =
      (keptRows lines).map
        (fun cells => (labelOf cells, rowDict (headerOf lines) cells)) := by
  unfold sessionsOf
  rw [foldl_dictInsert_cells (headerOf lines) (keptRows lines) [] h (by simp)]
  rfl

theorem length_filter_filterMap {α β : Type} (f : α → Option β) (q : β → Bool)
    (l : List α) :
    ((l.filterMap f).filter q).length = (l.filter (fun a => (f a).any q)).length := by
  induction l with
  | nil => rfl
  | cons a as ih =>
      rw [List.filterMap_cons, List.filter_cons]
      cases hfa : f a with
      | none =>
          simp only [Option.any_none, Bool.false_eq_true, if_false]
          exact ih
      | some b =>
          simp only [Option.any_some]
          rw [List.filter_cons]
          by_cases hq : q b
          · simp only [hq, if_true, List.length_cons, ih]
          · simp only [hq, Bool.false_eq_true, if_false, ih]

theorem option_any_map {α β : Type} (o : Option α) (f : α → β) (q : β → Bool) :
    (o.map f).any q = o.any (fun a => q (f a)) := by
  cases o <;> rfl

theorem personSessions_of_nodup (lines : List String) (p : String)
    (h : ((keptRows lines).map labelOf).Nodup) :
    personSessions lines p =
      (keptRows lines).filterMap
        (fun cells => (rowStatusFor lines p cells).map (fun v => (labelOf cells, v))) := by
  unfold personSessions
  rw [sessionsOf_of_nodup lines h, List.filterMap_map]
  rfl

/-- C4 (amended): for a table whose kept session rows carry pairwise distinct
session labels, `total_sessions` equals the number of session rows,
`attended` counts the rows whose (positionally recorded) status for the
person is 'A' or 'X', `justified` counts status 'J', and `attendance_rate`
is attended/total*100 rounded to 2 decimals, or 0 when total is 0; the
ten-session example (7 'A', 1 'X', 2 blank) gives attended 8 and rate 80.
Without the distinct-label proviso the source collapses duplicate labels into
one dict entry (see the counterexample). -/
theorem attendance_stats (lines : List String) (p : String)
    (hnodup : ((keptRows lines).map labelOf).Nodup) :
    (statsFor lines p).total_sessions = (keptRows lines).length ∧
    (statsFor lines p).attended = ((keptRows lines).filter
        (fun cells => (rowStatusFor lines p cells).any
          (fun v => v = "A" || v = "X"))).length ∧
    (statsFor lines p).justified = ((keptRows lines).filter
        (fun cells => (rowStatusFor lines p cells).any (fun v => v = "J"))).length ∧
    (statsFor lines p).attendance_rate =
      (if (statsFor lines p).total_sessions ≠ 0 then
        pyRound2 (((statsFor lines p).attended : ℚ)
          / ((statsFor lines p).total_sessions : ℚ) * 100)
       else 0) ∧
    ((statsFor exampleLines "P1").attended = 8 ∧
      (statsFor exampleLines "P1").attendance_rate = 80) := by
  refine ⟨?_, ?_, ?_, rfl, by decide, ?_⟩
  · show (sessionsOf lines).length = _
    rw [sessionsOf_of_nodup lines hnodup, List.length_map]
  · show ((personSessions lines p).filter _).length = _
    rw [personSessions_of_nodup lines p hnodup, length_filter_filterMap]
    congr 1
    apply List.filter_congr
    intro cells _
    rw [option_any_map]
  · show ((personSessions lines p).filter _).length = _
    rw [personSessions_of_nodup lines p hnodup, length_filter_filterMap]
    congr 1
    apply List.filter_congr
    intro cells _
    rw [option_any_map]
  · show (if (10 : ℕ) ≠ 0 then pyRound2 ((8 : ℚ) / (10 : ℚ) * 100) else 0) = 80
    norm_num [pyRound2, roundHalfEven]

theorem attendance_stats_witness :
    (statsFor exampleLines "P1").total_sessions = (keptRows exampleLines).length ∧
    (statsFor exampleLines "P1").attended = ((keptRows exampleLines).filter
        (fun cells => (rowStatusFor exampleLines "P1" cells).any
          (fun v => v = "A" || v = "X"))).length :=
  ⟨(attendance_stats exampleLines "P1" (by decide)).1,
   (attendance_stats exampleLines "P1" (by decide)).2.1⟩

/-- C4 counterexample, two independent divergences from the claim.
First, in the table `dupLines` the two kept session rows share the label
"s1" and both record an attended status for P1, yet the stats give
total_sessions 1 (not the number of session rows, 2) and attended 1 (not the
number of attended statuses, 2): the second "s1" row overwrites the first in
the sessions dict.  Second, in the table `shiftLines` the only session row
reads `| s1 | | A |` under header Sesion/P1/P2 — column-aligned, P1's cell
is blank and P2's is 'A' — yet the parser drops the blank cell and pairs the
rest positionally with the header, so P1 gets attended 1 (the claim says 0)
and P2 gets attended 0 (the claim says 1). -/
theorem attendance_stats_counterexample :
    ((keptRows dupLines).length = 2 ∧
     ((keptRows dupLines).filter
         (fun cells => (rowStatusFor dupLines "P1" cells).any
           (fun v => v = "A" || v = "X"))).length = 2 ∧
     (statsFor dupLines "P1").total_sessions = 1 ∧
     (statsFor dupLines "P1").attended = 1 ∧
     (statsFor dupLines "P1").total_sessions ≠ (keptRows dupLines).length) ∧
    (headerOf shiftLines = ["Sesion", "P1", "P2"] ∧
     (keptRows shiftLines).length = 1 ∧
     columnCells "| s1 | | A |" = ["s1", "", "A"] ∧
     (statsFor shiftLines "P1").attended = 1 ∧
     (statsFor shiftLines "P2").attended = 0) :=
  ⟨⟨by decide, by decide, by decide, by decide, by decide⟩,
   ⟨by decide, by decide, by decide, by decide, by decide⟩⟩

/-! ## Question slugs (C5) -/

theorem pyLowerChar_eq_dot {d : Char} (h : pyLowerChar d = '.') : d = '.' := by
  unfold pyLowerChar at h
  split_ifs at h with h1 h2 h3 h4 h5 h6 h7
  · exact absurd h (by decide)
  · exact absurd h (by decide)
  · exact absurd h (by decide)
  · exact absurd h (by decide)
  · exact absurd h (by decide)
  · exact absurd h (by decide)
  · exact absurd h (by decide)
  · unfold asciiLowerChar at h
    by_cases hu : 65 ≤ d.toNat ∧ d.toNat ≤ 90
    · rw [if_pos hu] at h
      have := congrArg Char.toNat h
      rw [toNat_charOfNat _ (by omega)] at this
      have hd : ('.' : Char).toNat = 46 := by decide
      omega
    · rwa [if_neg hu] at h

theorem mem_collapseSpacesGo {c : Char} :
    ∀ (b : Bool) (l : List Char), c ∈ collapseSpacesGo b l → c = '_' ∨ c ∈ l := by
  intro b l
  induction l generalizing b with
  | nil => intro h; cases h
  | cons a as ih =>
      intro h
      unfold collapseSpacesGo at h
      by_cases ha : isSpaceB a
      · rw [if_pos ha] at h
        by_cases hb : b
        · rcases ih true (by simpa [hb] using h) with h' | h'
          · exact Or.inl h'
          · exact Or.inr (by simp [h'])
        · simp only [hb, Bool.false_eq_true, if_false, List.mem_cons] at h
          rcases h with h' | h'
          · exact Or.inl h'
          · rcases ih true h' with h'' | h''
            · exact Or.inl h''
            · exact Or.inr (by simp [h''])
      · rw [if_neg ha] at h
        rcases List.mem_cons.mp h with h' | h'
        · exact Or.inr (by simp [h'])
        · rcases ih false h' with h'' | h''
          · exact Or.inl h''
          · exact Or.inr (by simp [h''])

theorem no_dot_slugBase (s : String) : '.' ∉ (slugBase s).data := by
  intro h
  unfold slugBase pyLower at h
  rw [List.mem_map] at h
  rcases h with ⟨d, hd, hlow⟩
  have hd' : d = '.' := pyLowerChar_eq_dot hlow
  subst hd'
  rcases mem_collapseSpacesGo false _ hd with h' | h'
  · exact absurd h' (by decide)
  · rw [List.mem_filter] at h'
    exact absurd h'.2 (by decide)

theorem fitWords_take : ∀ (ws : List String) (t : Nat), ∃ k, fitWords t ws = ws.take k := by
  intro ws
  induction ws with
  | nil => exact fun t => ⟨0, rfl⟩
  | cons w ws' ih =>
      intro t
      unfold fitWords
      by_cases h : t + w.length ≤ 25
      · rw [if_pos h]
        rcases ih (t + w.length + 1) with ⟨k', hk'⟩
        exact ⟨k' + 1, by rw [hk']; rfl⟩
      · rw [if_neg h]
        exact ⟨0, rfl⟩

theorem fitWords_budget : ∀ (ws : List String) (t : Nat),
    fitWords t ws = [] ∨ t + (joinSpace (fitWords t ws)).length ≤ 25 := by
  intro ws
  induction ws with
  | nil => exact fun t => Or.inl rfl
  | cons w ws' ih =>
      intro t
      unfold fitWords
      by_cases h : t + w.length ≤ 25
      · rw [if_pos h]
        refine Or.inr ?_
        rcases hr : fitWords (t + w.length + 1) ws' with _ | ⟨r, rs⟩
        · show t + (joinSpace [w]).length ≤ 25
          exact h
        · show t + (joinSpace (w :: r :: rs)).length ≤ 25
          have hlen : (joinSpace (w :: r :: rs)).length
              = w.length + 1 + (joinSpace (r :: rs)).length := by
            show (w ++ " " ++ joinSpace (r :: rs)).length = _
            rw [String.length_append, String.length_append]
            rfl
          rw [hlen]
          rcases ih (t + w.length + 1) with h' | h'
          · rw [hr] at h'
            cases h'
          · rw [hr] at h'
            omega
      · rw [if_neg h]
        exact Or.inl rfl

theorem fitWords_join_le (ws : List String) :
    (joinSpace (fitWords 0 ws)).length ≤ 25 := by
  rcases fitWords_budget ws 0 with h | h
  · rw [h]
    decide
  · omega

/-- C5 (amended): the slug of a header whose cleaned text exceeds 30
characters is built from a greedy prefix of its words fitting a 25-character
budget (a word-boundary truncation) with an ellipsis marker appended — but
the punctuation-stripping step then deletes the marker, so no slug ever
contains a dot; headers at or under the limit are slugged without
truncation. -/
theorem simplify_question_amended :
    (∀ q : String, '.' ∉ (simplify_question q).data) ∧
    (∀ q : String, (pyStrip (removeEmojis q)).length ≤ 30 →
      simplify_question q = slugBase (pyStrip (removeEmojis q))) ∧
    (∀ q : String, 30 < (pyStrip (removeEmojis q)).length →
      (∃ k, fitWords 0 (pyWords (pyStrip (removeEmojis q)))
          = (pyWords (pyStrip (removeEmojis q))).take k) ∧
      (joinSpace (fitWords 0 (pyWords (pyStrip (removeEmojis q))))).length ≤ 25 ∧
      simplify_question q =
        slugBase
          (if (fitWords 0 (pyWords (pyStrip (removeEmojis q)))).length
              < (pyWords (pyStrip (removeEmojis q))).length then
            joinSpace (fitWords 0 (pyWords (pyStrip (removeEmojis q)))) ++ "..."
          else joinSpace (fitWords 0 (pyWords (pyStrip (removeEmojis q)))))) := by
  refine ⟨?_, ?_, ?_⟩
  · intro q
    exact no_dot_slugBase _
  · intro q hle
    unfold simplify_question
    dsimp only
    rw [if_neg (by omega)]
  · intro q hgt
    refine ⟨fitWords_take _ 0, fitWords_join_le _, ?_⟩
    unfold simplify_question
    dsimp only
    rw [if_pos hgt]

/-- C5 counterexample: this 40-character header is truncated at a word
boundary, yet its slug carries no ellipsis marker: the appended "..." is
removed by the punctuation-stripping step. -/
theorem simplify_question_counterexample :
    30 < longHeader.length ∧
    simplify_question longHeader = "this_is_a_very_long" ∧
    '.' ∉ (simplify_question longHeader).data :=
  ⟨by decide, by decide, by decide⟩

theorem simplify_question_amended_witness :
    (∃ k, fitWords 0 (pyWords (pyStrip (removeEmojis longHeader)))
        = (pyWords (pyStrip (removeEmojis longHeader))).take k) ∧
    simplify_question "Nombre Completo" = slugBase (pyStrip (removeEmojis "Nombre Completo")) :=
  ⟨(simplify_question_amended.2.2 longHeader (by decide)).1,
   simplify_question_amended.2.1 "Nombre Completo" (by decide)⟩

/-! ## Fuzzy name matching (C2) -/

theorem bestScoreOver_cons (nw : Finset String) (p : String) (rest : List String) :
    bestScoreOver nw (p :: rest) = max (scoreOf nw p) (bestScoreOver nw rest) := rfl

theorem bestScoreOver_nonneg (nw : Finset String) (l : List String) :
    0 ≤ bestScoreOver nw l := by
  induction l with
  | nil => exact le_refl 0
  | cons p rest ih => exact le_max_of_le_right ih

theorem matchAux_isSome_iff (nl nn : String) (nw : Finset String) :
    ∀ (rest : List String) (idx : Nat) (best : Option Nat) (bs : ℚ),
    0 ≤ bs → (0 < bs → best.isSome = true) →
    ((matchAux nl nn nw rest idx best bs).isSome = true ↔
      ((∃ p ∈ rest, nl = pyStrip (pyLower p) ∨ nn = normalize_spanish_name p)
       ∨ 1/2 ≤ max bs (bestScoreOver nw rest)
       ∨ (0 < max bs (bestScoreOver nw rest) ∧ nw.card ≤ 2))) := by
  intro rest
  induction rest with
  | nil =>
      intro idx best bs hbs hsome
      have hmax : max bs (bestScoreOver nw []) = bs := max_eq_left hbs
      rw [hmax]
      unfold matchAux
      by_cases hc : bs ≥ 1/2 ∨ (0 < bs ∧ nw.card ≤ 2)
      · rw [if_pos hc]
        have hb : best.isSome = true := by
          rcases hc with h | h
          · exact hsome (lt_of_lt_of_le (by norm_num) h)
          · exact hsome h.1
        rw [hb]
        simp only [List.not_mem_nil, false_and, exists_false, false_or, true_iff]
        exact hc
      · rw [if_neg hc]
        simp only [Option.isSome_none, Bool.false_eq_true, false_iff]
        intro hcon
        rcases hcon with ⟨p, hp, -⟩ | h | h
        · cases hp
        · exact hc (Or.inl h)
        · exact hc (Or.inr h)
  | cons p rest ih =>
      intro idx best bs hbs hsome
      unfold matchAux
      by_cases hex : nl = pyStrip (pyLower p) ∨ nn = normalize_spanish_name p
      · rw [if_pos hex]
        simp only [Option.isSome_some, true_iff]
        exact Or.inl ⟨p, List.mem_cons_self p rest, hex⟩
      · rw [if_neg hex]
        dsimp only
        have hexiff : (∃ q ∈ p :: rest, nl = pyStrip (pyLower q) ∨ nn = normalize_spanish_name q)
            ↔ (∃ q ∈ rest, nl = pyStrip (pyLower q) ∨ nn = normalize_spanish_name q) := by
          constructor
          · rintro ⟨q, hq, hE⟩
            rcases List.mem_cons.mp hq with rfl | hq'
            · exact absurd hE hex
            · exact ⟨q, hq', hE⟩
          · rintro ⟨q, hq, hE⟩
            exact ⟨q, List.mem_cons_of_mem p hq, hE⟩
        by_cases hc : 0 < (nw ∪ filteredWordSet p).card ∧ 0 < (nw ∩ filteredWordSet p).card
            ∧ bs < ((nw ∩ filteredWordSet p).card : ℚ) / ((nw ∪ filteredWordSet p).card : ℚ)
        · rw [if_pos hc]
          rw [ih (idx + 1) (some idx)
            (((nw ∩ filteredWordSet p).card : ℚ) / ((nw ∪ filteredWordSet p).card : ℚ))
            (le_trans hbs (le_of_lt hc.2.2)) (fun _ => rfl)]
          have hsc : scoreOf nw p
              = ((nw ∩ filteredWordSet p).card : ℚ) / ((nw ∪ filteredWordSet p).card : ℚ) := by
            unfold scoreOf jaccardNum
            dsimp only
            rw [if_pos hc.2.1]
          have hmx : max bs (bestScoreOver nw (p :: rest))
              = max (((nw ∩ filteredWordSet p).card : ℚ)
                  / ((nw ∪ filteredWordSet p).card : ℚ)) (bestScoreOver nw rest) := by
            rw [bestScoreOver_cons, hsc, ← max_assoc, max_eq_right (le_of_lt hc.2.2)]
          rw [hmx, hexiff]
        · rw [if_neg hc]
          rw [ih (idx + 1) best bs hbs hsome]
          have hmx : max bs (bestScoreOver nw (p :: rest)) = max bs (bestScoreOver nw rest) := by
            rw [bestScoreOver_cons]
            by_cases hi : 0 < (nw ∩ filteredWordSet p).card
            · have hu : 0 < (nw ∪ filteredWordSet p).card :=
                lt_of_lt_of_le hi (Finset.card_le_card Finset.inter_subset_union)
              have hs : ((nw ∩ filteredWordSet p).card : ℚ)
                  / ((nw ∪ filteredWordSet p).card : ℚ) ≤ bs := by
                by_contra hlt
                push_neg at hlt
                exact hc ⟨hu, hi, hlt⟩
              have hsc : scoreOf nw p
                  = ((nw ∩ filteredWordSet p).card : ℚ)
                    / ((nw ∪ filteredWordSet p).card : ℚ) := by
                unfold scoreOf jaccardNum
                dsimp only
                rw [if_pos hi]
              rw [hsc, ← max_assoc, max_eq_left hs]
            · have hsc : scoreOf nw p = 0 := by
                unfold scoreOf
                dsimp only
                rw [if_neg hi]
              rw [hsc, max_eq_right (bestScoreOver_nonneg nw rest)]
          rw [hmx, hexiff]

/-- C2: match_person_name returns a match exactly when some candidate's name
equals the query after lower-casing or after accent normalisation (the exact
short-circuit), or the best Jaccard score of the stop-word-filtered word sets
over candidates with non-zero intersection reaches 1/2, or that best score is
positive while the query has at most two filtered words; otherwise it returns
none. -/
theorem match_person_name_iff (name : String) (people : List String) :
    (match_person_name name people).isSome = true ↔
      ((∃ p ∈ people, pyStrip (pyLower name) = pyStrip (pyLower p)
          ∨ normalize_spanish_name name = normalize_spanish_name p)
       ∨ 1/2 ≤ bestScoreOver (filteredWordSet name) people
       ∨ (0 < bestScoreOver (filteredWordSet name) people
            ∧ (filteredWordSet name).card ≤ 2)) := by
  unfold match_person_name
  rw [matchAux_isSome_iff (pyStrip (pyLower name)) (normalize_spanish_name name)
    (filteredWordSet name) people 0 none 0 le_rfl (fun h => absurd h (lt_irrefl 0))]
  rw [max_eq_right (bestScoreOver_nonneg _ _)]

/-! ## Missing attendance directory (C9) -/

/-- C9: when the attendance directory does not exist the registry passes
through unchanged — no person modified, added or removed. -/
theorem attendance_dir_missing_passthrough (files : List (String × List String))
    (people : List CanonicalPerson) :
    process_attendance_files false files people = people := rfl

/-! ## Encrypt/decrypt round trip (C10) -/

theorem natFromBytes_natToBytes (w n : Nat) :
    natFromBytesBE (natToBytesBE w n) = n % 256 ^ w := by
  induction w generalizing n with
  | zero => simp [natToBytesBE, natFromBytesBE, Nat.mod_one]
  | succ w ih =>
      show natFromBytesBE (natToBytesBE w (n / 256) ++ [n % 256]) = _
      unfold natFromBytesBE
      rw [List.foldl_append]
      show (natFromBytesBE (natToBytesBE w (n / 256))) * 256 + n % 256 = _
      rw [ih]
      rw [pow_succ, mul_comm (256 ^ w) 256, Nat.mod_mul]
      ring

theorem length_natToBytes (w n : Nat) : (natToBytesBE w n).length = w := by
  induction w generalizing n with
  | zero => rfl
  | succ w ih =>
      show (natToBytesBE w (n / 256) ++ [n % 256]).length = w + 1
      rw [List.length_append, ih]
      rfl

theorem length_ksBlocks (hash32 : List Nat → List Nat) (key : List Nat)
    (hlen : ∀ x, (hash32 x).length = 32) :
    ∀ (k : Nat) (temp : List Nat), (ksBlocks hash32 key temp k).length = 32 * k := by
  intro k
  induction k with
  | zero => intro temp; rfl
  | succ k ih =>
      intro temp
      show (hash32 (key ++ temp) ++ ksBlocks hash32 key (hash32 (key ++ temp)) k).length = _
      rw [List.length_append, hlen, ih]
      ring

theorem length_keystream (hash32 : List Nat → List Nat) (key nonce : List Nat)
    (hlen : ∀ x, (hash32 x).length = 32) (n : Nat) :
    (keystream hash32 key nonce n).length = n := by
  unfold keystream
  rw [List.length_take, length_ksBlocks hash32 key hlen]
  omega

theorem zipWith_xor_cancel :
    ∀ (p k : List Nat), p.length ≤ k.length →
      List.zipWith Nat.xor (List.zipWith Nat.xor p k) k = p := by
  intro p
  induction p with
  | nil => intro k _; rfl
  | cons a as ih =>
      intro k hk
      cases k with
      | nil => simp at hk
      | cons c cs =>
          show (a ^^^ c ^^^ c) :: List.zipWith Nat.xor (List.zipWith Nat.xor as cs) cs
              = a :: as
          rw [Nat.xor_cancel_right]
          rw [ih cs (by simpa using hk)]

theorem take_len_append {α : Type} (l₁ l₂ : List α) (n : Nat) (h : l₁.length = n) :
    (l₁ ++ l₂).take n = l₁ := by
  subst h
  exact List.take_left _ _

theorem drop_len_append {α : Type} (l₁ l₂ : List α) (n : Nat) (h : l₁.length = n) :
    (l₁ ++ l₂).drop n = l₂ := by
  subst h
  exact List.drop_left _ _

/-- C10: decrypting an encrypted file with the same passphrase reproduces the
original content exactly, for every file content, filename and passphrase —
for any hash with 32-byte output (hence for SHA-256) and any key-derivation
function: the stored filename metadata plus the derived key determine the
keystream, and XOR is symmetric. -/
theorem crypt_roundtrip (hash32 : List Nat → List Nat) (kdf : String → List Nat)
    (hlen : ∀ x, (hash32 x).length = 32)
    (plaintext filenameBytes : List Nat) (passphrase : String)
    (hfn : filenameBytes.length < 256 ^ 16) :
    decrypt_file hash32 kdf
        (encrypt_file hash32 kdf plaintext filenameBytes passphrase) passphrase
      = plaintext := by
  unfold encrypt_file decrypt_file
  dsimp only
  have h16 : (natToBytesBE 16 filenameBytes.length).length = 16 := length_natToBytes 16 _
  rw [List.append_assoc]
  rw [take_len_append _ _ 16 h16, drop_len_append _ _ 16 h16]
  rw [natFromBytes_natToBytes, Nat.mod_eq_of_lt hfn]
  rw [take_len_append _ _ _ rfl, drop_len_append _ _ _ rfl]
  have hzl : (List.zipWith Nat.xor plaintext
      (keystream hash32 (kdf passphrase) (fileNonce hash32 filenameBytes)
        plaintext.length)).length = plaintext.length := by
    rw [List.length_zipWith, length_keystream hash32 _ _ hlen]
    exact min_self _
  rw [hzl]
  exact zipWith_xor_cancel plaintext _
    (by rw [length_keystream hash32 _ _ hlen])

theorem crypt_roundtrip_witness :
    decrypt_file zeroHash (fun _ => [7, 9])
        (encrypt_file zeroHash (fun _ => [7, 9]) [1, 2, 3] [97, 98] "p") "p"
      = [1, 2, 3] :=
  crypt_roundtrip zeroHash (fun _ => [7, 9])
    (fun x => List.length_replicate 32 (x.length % 256)) [1, 2, 3] [97, 98] "p"
    (by norm_num)
